import Mathlib

/-!
Verification of the text auto-fit engine of the GoodNewsGenerator repository.

The development shallowly embeds the fitting logic of
`generator.py` (`NewsGenerator._has_emoji`, `NewsGenerator._get_font`,
`NewsGenerator._calculate_font_size`, the line handling of
`NewsGenerator.generate`) and the text normalization of
`main.py` (`GoodNewsGenerator._clean_text`).

Texts are lists of Unicode code points (`List Char`).  Measured widths are
rationals; the actual pixel measurement (PIL / pilmoji) is abstracted as a
parameter `W : List Char → ℤ → ℚ` giving the width of a string at a font
size, because the fitting algorithm only consumes measured widths.
Python's `textwrap.wrap(text, width, break_long_words=True,
break_on_hyphens=False)` is modelled faithfully after CPython's
`TextWrapper` (`_munge_whitespace`, `_split`, `_handle_long_word`,
`_wrap_chunks` with the default `expand_tabs`, `replace_whitespace` and
`drop_whitespace` behavior).
-/

namespace GoodNews

/-- The characters of Python's `string.whitespace`, the set collapsed by
`_munge_whitespace` and recognized by `str.strip` on ASCII-ish input. -/
def pyWs (c : Char) : Bool :=
  c = ' ' || c = '\t' || c = '\n' || c = '\r' || c = '\x0b' || c = '\x0c'

/-- The non-whitespace code points of a string, in order. -/
def filterNW (cs : List Char) : List Char :=
  cs.filter (fun c => !pyWs c)

/-- Python `str.expandtabs(8)`: replace each tab with spaces up to the next
multiple of 8, tracking the column, which resets on a line break. -/
def expandTabs8 : Nat → List Char → List Char
  | _, [] => []
  | col, c :: cs =>
    if c = '\t' then
      List.replicate (8 - col % 8) ' ' ++ expandTabs8 (col + (8 - col % 8)) cs
    else if c = '\n' || c = '\r' then c :: expandTabs8 0 cs
    else c :: expandTabs8 (col + 1) cs

/-- `TextWrapper._munge_whitespace`: expand tabs, then turn every whitespace
character into a plain space. -/
def munge (cs : List Char) : List Char :=
  (expandTabs8 0 cs).map (fun c => if pyWs c then ' ' else c)

/-- `TextWrapper._split` with `break_on_hyphens=False`: split the munged text
into maximal runs of whitespace and maximal runs of non-whitespace
(`wordsep_simple_re`), keeping both kinds of chunk. -/
def chunksOf : List Char → List (List Char)
  | [] => []
  | c :: cs =>
    match chunksOf cs with
    | [] => [[c]]
    | r :: rs =>
      match r with
      | [] => [c] :: r :: rs
      | d :: _ => if pyWs c = pyWs d then (c :: r) :: rs else [c] :: r :: rs

/-- A chunk satisfying Python's `chunk.strip() == ''` test: every character is
whitespace. -/
def isWsChunk (r : List Char) : Bool := r.all pyWs

/-- Total number of characters held in a chunk list. -/
def totalLen (chs : List (List Char)) : Nat := (chs.map List.length).sum

/-- The greedy inner loop of `_wrap_chunks`: starting from accumulated length
`n`, move whole chunks onto the current line while the line stays within
`w` characters; return the taken chunks and the remainder. -/
def greedyTake (w : Nat) : Nat → List (List Char) → List (List Char) × List (List Char)
  | _, [] => ([], [])
  | n, r :: rest =>
    if n + r.length ≤ w then
      ((r :: (greedyTake w (n + r.length) rest).1), (greedyTake w (n + r.length) rest).2)
    else ([], r :: rest)

/-- Drop the leading whitespace chunk of a line, but only when some line has
already been produced (`drop_whitespace and chunks[-1].strip() == '' and
lines` in `_wrap_chunks`). -/
def dropLeadingWs (hasLines : Bool) (chs : List (List Char)) : List (List Char) :=
  match chs with
  | r :: rest => if hasLines && isWsChunk r then rest else r :: rest
  | [] => []

/-- `TextWrapper._handle_long_word` with `break_long_words=True` and
`break_on_hyphens=False`: when the next chunk alone exceeds the width,
break it at the remaining space of the current line (at least one
character when the width is below one). -/
def handleLongWord (w : Nat) (p : List (List Char) × List (List Char)) :
    List (List Char) × List (List Char) :=
  match p.2 with
  | r :: rest =>
    if w < r.length then
      (p.1 ++ [r.take (if w < 1 then 1 else w - totalLen p.1)],
       r.drop (if w < 1 then 1 else w - totalLen p.1) :: rest)
    else (p.1, r :: rest)
  | [] => (p.1, [])

/-- Drop the trailing chunk of the current line when it strips to the empty
string (`drop_whitespace and cur_line and cur_line[-1].strip() == ''`). -/
def dropTrailingWs (cur : List (List Char)) : List (List Char) :=
  match cur.getLast? with
  | some last => if isWsChunk last then cur.dropLast else cur
  | none => cur

/-- One iteration of the outer `while chunks` loop of `_wrap_chunks`:
produce the chunks of the next line (possibly none) and the remaining
chunk list. -/
def buildLine (w : Nat) (hasLines : Bool) (chs : List (List Char)) :
    List (List Char) × List (List Char) :=
  (dropTrailingWs (handleLongWord w (greedyTake w 0 (dropLeadingWs hasLines chs))).1,
   (handleLongWord w (greedyTake w 0 (dropLeadingWs hasLines chs))).2)

/-- The outer loop of `_wrap_chunks`, driven by fuel; a line is emitted only
when its chunk list is non-empty (`if cur_line`).  Every iteration on a
non-empty chunk list consumes at least one character, so fuel
`totalLen chs + 1` makes the function total on the fuel it is given. -/
def wrapLoop (w : Nat) : Nat → Bool → List (List Char) → List (List Char)
  | 0, _, _ => []
  | fuel + 1, hasLines, chs =>
    match chs with
    | [] => []
    | _ :: _ =>
      if (buildLine w hasLines chs).1.isEmpty then
        wrapLoop w fuel hasLines (buildLine w hasLines chs).2
      else
        (buildLine w hasLines chs).1.flatten :: wrapLoop w fuel true (buildLine w hasLines chs).2

/-- `textwrap.wrap(text, width=w, break_long_words=True,
break_on_hyphens=False)`. -/
def pywrap (w : Nat) (text : List Char) : List (List Char) :=
  wrapLoop w (totalLen (chunksOf (munge text)) + 1) false (chunksOf (munge text))

/-- `NewsGenerator._has_emoji`, per character: Unicode category `So`
(abstracted as the table `catSo`) or a code point in the inclusive range
U+1F000–U+1F9FF. -/
def isEmojiChar (catSo : Char → Bool) (c : Char) : Bool :=
  catSo c || (decide (0x1F000 ≤ c.toNat) && decide (c.toNat ≤ 0x1F9FF))

/-- `NewsGenerator._has_emoji` over a whole string. -/
def hasEmoji (catSo : Char → Bool) (text : List Char) : Bool :=
  text.any (isEmojiChar catSo)

/-- The running maximum of measured line widths, starting from 0
(`max_line_width = 0; for line in lines: ...`). -/
def maxLineWidth (W : List Char → ℤ → ℚ) (fs : ℤ) (lines : List (List Char)) : ℚ :=
  lines.foldl (fun m l => max m (W l fs)) 0

/-- `text_height = current_line_count * font_size * 1.5`, held exactly as the
rational `3 * lc * fs / 2` (`textHeightQ_eq` below rewrites it to the
product form). -/
def textHeightQ (lc : Nat) (fs : ℤ) : ℚ := mkRat (3 * (lc : ℤ) * fs) 2

/-- The character-budget offsets tried by the inner loop, in source order. -/
def offsetList : List ℤ := [0, -1, 1, -2, 2]

/-- `cpl = max(1, chars_per_line + cpl_adjust)` as a natural number. -/
def clampCpl (c0 : Nat) (adj : ℤ) : Nat := (max 1 ((c0 : ℤ) + adj)).toNat

/-- The inner `for cpl_adjust in [0, -1, 1, -2, 2]` loop of
`_calculate_font_size`: wrap at the adjusted budget, skip the candidate
unless it produces exactly `lc` lines, and return the first candidate
whose measured widths and computed height fit the box. -/
def tryOffsets (W : List Char → ℤ → ℚ) (mW mH : ℚ) (text : List Char)
    (lc : Nat) (c0 : Nat) (fs : ℤ) : List ℤ → Option (ℤ × Nat)
  | [] => none
  | adj :: rest =>
    if (pywrap (clampCpl c0 adj) text).length ≠ lc then
      tryOffsets W mW mH text lc c0 fs rest
    else if maxLineWidth W fs (pywrap (clampCpl c0 adj) text) ≤ mW ∧
        textHeightQ lc fs ≤ mH then
      some (fs, clampCpl c0 adj)
    else tryOffsets W mW mH text lc c0 fs rest

/-- The middle `while font_size >= min_font_size` loop, stepping the font
size down by 5, driven by fuel.  With fuel `(fs - minFs).toNat + 1` the
fuel never runs out before the loop condition fails. -/
def tryFontSizesAux (W : List Char → ℤ → ℚ) (mW mH : ℚ) (text : List Char)
    (lc : Nat) (c0 : Nat) (minFs : ℤ) : Nat → ℤ → Option (ℤ × Nat)
  | 0, _ => none
  | fuel + 1, fs =>
    if minFs ≤ fs then
      match tryOffsets W mW mH text lc c0 fs offsetList with
      | some r => some r
      | none => tryFontSizesAux W mW mH text lc c0 minFs fuel (fs - 5)
    else none

/-- Fuel sufficient for the font-size loop started at `initFs`. -/
def fontFuel (initFs minFs : ℤ) : Nat := (initFs - minFs).toNat + 1

/-- The middle loop of `_calculate_font_size`, from `initFs` down to
`minFs` in steps of 5. -/
def tryFontSizes (W : List Char → ℤ → ℚ) (mW mH : ℚ) (text : List Char)
    (lc : Nat) (c0 : Nat) (initFs minFs : ℤ) : Option (ℤ × Nat) :=
  tryFontSizesAux W mW mH text lc c0 minFs (fontFuel initFs minFs) initFs

/-- The outer `while current_line_count <= 3` loop, with
`chars_per_line = (len(text) + lc - 1) // lc` recomputed per line count.
Started at `lc = 1` with fuel 4 the fuel never runs out before the loop
condition fails. -/
def tryLineCountsAux (W : List Char → ℤ → ℚ) (mW mH : ℚ) (text : List Char)
    (initFs minFs : ℤ) : Nat → Nat → Option (ℤ × Nat)
  | 0, _ => none
  | fuel + 1, lc =>
    if lc ≤ 3 then
      match tryFontSizes W mW mH text lc ((text.length + lc - 1) / lc) initFs minFs with
      | some r => some r
      | none => tryLineCountsAux W mW mH text initFs minFs fuel (lc + 1)
    else none

/-- The accepting part of `_calculate_font_size`: the first fitting
candidate of the nested search, or `none` when the search is exhausted. -/
def searchAccept (W : List Char → ℤ → ℚ) (mW mH : ℚ) (text : List Char)
    (initFs minFs : ℤ) : Option (ℤ × Nat) :=
  tryLineCountsAux W mW mH text initFs minFs 4 1

/-- `fitGuaranteed` of the spec's FitResult: whether the returned pair comes
from an accepted candidate rather than the fallback. -/
def fitGuaranteed (W : List Char → ℤ → ℚ) (mW mH : ℚ) (text : List Char)
    (initFs minFs : ℤ) : Bool :=
  (searchAccept W mW mH text initFs minFs).isSome

/-- `NewsGenerator._calculate_font_size`: the accepted pair, or the fallback
`(min_font_size, max(1, (len(text) + 2) // 3))`. -/
def calculateFontSize (W : List Char → ℤ → ℚ) (mW mH : ℚ) (text : List Char)
    (initFs minFs : ℤ) : ℤ × Nat :=
  match searchAccept W mW mH text initFs minFs with
  | some r => r
  | none => (minFs, max 1 ((text.length + 2) / 3))

/-- The truncation step of `NewsGenerator.generate`: wrap at the returned
budget; when more than three lines come out, recompute the budget for
three lines, rewrap and keep the first three. -/
def truncatedLines (text : List Char) (cpl : Nat) : List (List Char) :=
  if (pywrap cpl text).length > 3 then
    (pywrap (max 1 ((text.length + 2) / 3)) text).take 3
  else pywrap cpl text

/-- The line post-processing of `NewsGenerator.generate`: the truncation
step, then `if not lines and text: lines = [text]` — when wrapping
yields no lines for a non-empty text, the whole text becomes the single
line. -/
def wrappedLines (text : List Char) (cpl : Nat) : List (List Char) :=
  if (truncatedLines text cpl).isEmpty && !text.isEmpty then [text]
  else truncatedLines text cpl

/-- The full line production of `NewsGenerator.generate`: fit, then wrap at
the returned characters-per-line budget. -/
def generateLines (W : List Char → ℤ → ℚ) (mW mH : ℚ) (text : List Char)
    (initFs minFs : ℤ) : List (List Char) :=
  wrappedLines text (calculateFontSize W mW mH text initFs minFs).2

/-- `' '.join(lines)`: the lines joined by single spaces. -/
def joinSpace (ls : List (List Char)) : List Char := (ls.intersperse [' ']).flatten

/-- The width function `get_text_width` closed over `has_emoji`: the whole
request's text selects the provider (pilmoji when the text has an emoji
and pilmoji is available, the plain font otherwise) and every line is
measured through that single selection. -/
def getTextWidth (catSo : Char → Bool) (mE mP : List Char → ℤ → ℚ) (avail : Bool)
    (text : List Char) (line : List Char) (fs : ℤ) : ℚ :=
  if hasEmoji catSo text && avail then mE line fs else mP line fs

/-- `_calculate_font_size` as called with its two concrete measurement
providers: the search runs against the `get_text_width` closure. -/
def calculateFontSizeFull (catSo : Char → Bool) (mE mP : List Char → ℤ → ℚ)
    (avail : Bool) (mW mH : ℚ) (text : List Char) (initFs minFs : ℤ) : ℤ × Nat :=
  calculateFontSize (getTextWidth catSo mE mP avail text) mW mH text initFs minFs

/-- The per-line width used by `generate` for horizontal centering: selected
by `self._has_emoji(line)` on the individual line, not on the whole text. -/
def lineRenderWidth (catSo : Char → Bool) (mE mP : List Char → ℤ → ℚ)
    (avail : Bool) (line : List Char) (fs : ℤ) : ℚ :=
  if hasEmoji catSo line && avail then mE line fs else mP line fs

/-- `x = (img_width - line_width) / 2`. -/
def lineRenderX (imgW lineW : ℚ) : ℚ := (imgW - lineW) / 2

/-- Written from the spec's words for the refinement claim about search
order: the descending font-size enumeration "restarts at initialFontSize
and descends by fontSizeStep (5) to minFontSize", driven by the same fuel
as the code's loop. -/
def specFontSizesAux (minFs : ℤ) : Nat → ℤ → List ℤ
  | 0, _ => []
  | fuel + 1, fs => if minFs ≤ fs then fs :: specFontSizesAux minFs fuel (fs - 5) else []

/-- The font sizes tried for one line-count tier, per the spec's words. -/
def specFontSizes (initFs minFs : ℤ) : List ℤ :=
  specFontSizesAux minFs (fontFuel initFs minFs) initFs

/-- Written from the spec's words for the refinement claim about search
order: the flat candidate list `(lineCount, fontSize, charsPerLine)` in
the exact preference order the spec states — line counts 1, 2, 3
outermost, then descending font sizes, then the budget offsets
`[0, -1, +1, -2, +2]` applied to `ceil(len(text) / lineCount)` and
clamped to at least 1. -/
def specCandidates (textLen : Nat) (initFs minFs : ℤ) : List (Nat × ℤ × Nat) :=
  ([1, 2, 3] : List Nat).flatMap fun lc =>
    (specFontSizes initFs minFs).flatMap fun fs =>
      offsetList.map fun adj => (lc, fs, clampCpl ((textLen + lc - 1) / lc) adj)

/-- Written from the spec's words: the acceptance test for one candidate —
reject unless the wrap produces exactly the candidate's line count,
accept when the measured widths and the computed height fit the box,
yielding the candidate's font size and accepted budget. -/
def specAccept (W : List Char → ℤ → ℚ) (mW mH : ℚ) (text : List Char)
    (cand : Nat × ℤ × Nat) : Option (ℤ × Nat) :=
  if (pywrap cand.2.2 text).length ≠ cand.1 then none
  else if maxLineWidth W cand.2.1 (pywrap cand.2.2 text) ≤ mW ∧
      textHeightQ cand.1 cand.2.1 ≤ mH then
    some (cand.2.1, cand.2.2)
  else none

/-- The inner offset loop instrumented with the number of width
measurements it performs: one measurement per line of every candidate
that passes the line-count check, including the candidate that is
finally accepted. -/
def tryOffsetsCount (W : List Char → ℤ → ℚ) (mW mH : ℚ) (text : List Char)
    (lc : Nat) (c0 : Nat) (fs : ℤ) : List ℤ → Option (ℤ × Nat) × Nat
  | [] => (none, 0)
  | adj :: rest =>
    if (pywrap (clampCpl c0 adj) text).length ≠ lc then
      tryOffsetsCount W mW mH text lc c0 fs rest
    else if maxLineWidth W fs (pywrap (clampCpl c0 adj) text) ≤ mW ∧
        textHeightQ lc fs ≤ mH then
      (some (fs, clampCpl c0 adj), (pywrap (clampCpl c0 adj) text).length)
    else
      ((tryOffsetsCount W mW mH text lc c0 fs rest).1,
       (pywrap (clampCpl c0 adj) text).length + (tryOffsetsCount W mW mH text lc c0 fs rest).2)

/-- The font-size loop instrumented with its measurement count. -/
def tryFontSizesCountAux (W : List Char → ℤ → ℚ) (mW mH : ℚ) (text : List Char)
    (lc : Nat) (c0 : Nat) (minFs : ℤ) : Nat → ℤ → Option (ℤ × Nat) × Nat
  | 0, _ => (none, 0)
  | fuel + 1, fs =>
    if minFs ≤ fs then
      match (tryOffsetsCount W mW mH text lc c0 fs offsetList).1 with
      | some r => (some r, (tryOffsetsCount W mW mH text lc c0 fs offsetList).2)
      | none =>
        ((tryFontSizesCountAux W mW mH text lc c0 minFs fuel (fs - 5)).1,
         (tryOffsetsCount W mW mH text lc c0 fs offsetList).2 +
           (tryFontSizesCountAux W mW mH text lc c0 minFs fuel (fs - 5)).2)
    else (none, 0)

/-- The line-count loop instrumented with its measurement count. -/
def tryLineCountsCountAux (W : List Char → ℤ → ℚ) (mW mH : ℚ) (text : List Char)
    (initFs minFs : ℤ) : Nat → Nat → Option (ℤ × Nat) × Nat
  | 0, _ => (none, 0)
  | fuel + 1, lc =>
    if lc ≤ 3 then
      match (tryFontSizesCountAux W mW mH text lc ((text.length + lc - 1) / lc) minFs
          (fontFuel initFs minFs) initFs).1 with
      | some r =>
        (some r,
         (tryFontSizesCountAux W mW mH text lc ((text.length + lc - 1) / lc) minFs
           (fontFuel initFs minFs) initFs).2)
      | none =>
        ((tryLineCountsCountAux W mW mH text initFs minFs fuel (lc + 1)).1,
         (tryFontSizesCountAux W mW mH text lc ((text.length + lc - 1) / lc) minFs
             (fontFuel initFs minFs) initFs).2 +
           (tryLineCountsCountAux W mW mH text initFs minFs fuel (lc + 1)).2)
    else (none, 0)

/-- The number of width measurements one fit call performs during its
nested search. -/
def searchCount (W : List Char → ℤ → ℚ) (mW mH : ℚ) (text : List Char)
    (initFs minFs : ℤ) : Nat :=
  (tryLineCountsCountAux W mW mH text initFs minFs 4 1).2

/-- The terminal error of `_get_font` when no font at all can be loaded
(`raise Exception("无法加载字体文件")`). -/
inductive FontError where
  | fontUnavailable
deriving DecidableEq

/-- `NewsGenerator._get_font`: try the requested font file; on an IO
failure fall back to the built-in default font; when that also fails,
raise the terminal error.  The two load attempts are abstracted as
`Option` results. -/
def getFont {F : Type} (truetypeFont : Option F) (defaultFont : Option F) :
    Except FontError F :=
  match truetypeFont with
  | some f => Except.ok f
  | none =>
    match defaultFont with
    | some f => Except.ok f
    | none => Except.error FontError.fontUnavailable

/-- Python `str.strip()`: drop whitespace from both ends. -/
def stripWs (cs : List Char) : List Char :=
  ((cs.dropWhile pyWs).reverse.dropWhile pyWs).reverse

/-- `re.sub(r'\s+', ' ', s)`: collapse every maximal whitespace run into a
single space, driven by fuel (the length of the list always suffices). -/
def collapseWsAux : Nat → List Char → List Char
  | 0, _ => []
  | _, [] => []
  | fuel + 1, c :: cs =>
    if pyWs c then ' ' :: collapseWsAux fuel (cs.dropWhile pyWs)
    else c :: collapseWsAux fuel cs

/-- Whitespace collapsing of `GoodNewsGenerator._clean_text`. -/
def collapseWs (cs : List Char) : List Char := collapseWsAux cs.length cs

/-- The fixed placeholder `"内容为空"` substituted for empty input. -/
def placeholderText : List Char := ['内', '容', '为', '空']

/-- `GoodNewsGenerator._clean_text`: strip, collapse whitespace, and
substitute the placeholder when nothing remains. -/
def cleanText (cs : List Char) : List Char :=
  if (collapseWs (stripWs cs)).isEmpty then placeholderText
  else collapseWs (stripWs cs)

theorem textHeightQ_eq (lc : Nat) (fs : ℤ) :
    textHeightQ lc fs = (lc : ℚ) * (fs : ℚ) * (3 / 2) := by
  rw [textHeightQ, Rat.mkRat_eq_div]
  push_cast
  ring

theorem filterNW_append (a b : List Char) :
    filterNW (a ++ b) = filterNW a ++ filterNW b :=
  List.filter_append a b

theorem filterNW_of_isWsChunk {r : List Char} (h : isWsChunk r = true) :
    filterNW r = [] := by
  induction r with
  | nil => rfl
  | cons c cs ih =>
    simp only [isWsChunk, List.all_cons, Bool.and_eq_true] at h
    simp only [filterNW, List.filter_cons, h.1, Bool.not_true, Bool.false_eq_true,
      if_false, reduceIte]
    exact ih (by simpa [isWsChunk] using h.2)

theorem chunksOf_flatten (cs : List Char) : (chunksOf cs).flatten = cs := by
  induction cs with
  | nil => rfl
  | cons c cs ih =>
    simp only [chunksOf]
    cases h : chunksOf cs with
    | nil =>
      rw [h] at ih
      simp only [List.flatten_nil] at ih
      simp [← ih]
    | cons r rs =>
      rw [h] at ih
      simp only [List.flatten_cons] at ih
      cases r with
      | nil =>
        simp only [List.flatten_cons, List.nil_append] at ih ⊢
        simp [ih]
      | cons d ds =>
        by_cases hpd : pyWs c = pyWs d
        · simp only [hpd, reduceIte, List.flatten_cons, List.cons_append]
          rw [← ih]
          simp
        · simp only [hpd, reduceIte, List.flatten_cons, List.cons_append]
          rw [← ih]
          simp

theorem chunksOf_ne_nil {cs : List Char} : ∀ r ∈ chunksOf cs, r ≠ [] := by
  induction cs with
  | nil => simp [chunksOf]
  | cons c cs ih =>
    intro r hr
    simp only [chunksOf] at hr
    cases h : chunksOf cs with
    | nil =>
      rw [h] at hr
      simp only [List.mem_singleton] at hr
      simp [hr]
    | cons q qs =>
      rw [h] at hr
      have hq : q ≠ [] := ih q (h ▸ List.mem_cons_self q qs)
      cases q with
      | nil => exact absurd rfl hq
      | cons d ds =>
        by_cases hpd : pyWs c = pyWs d
        · simp only [hpd, reduceIte] at hr
          rcases List.mem_cons.mp hr with h1 | h1
          · simp [h1]
          · exact ih r (h ▸ List.mem_cons_of_mem _ h1)
        · simp only [hpd, reduceIte] at hr
          rcases List.mem_cons.mp hr with h1 | h1
          · simp [h1]
          · exact ih r (h ▸ h1)

theorem greedyTake_flatten (w : Nat) (n : Nat) (chs : List (List Char)) :
    (greedyTake w n chs).1.flatten ++ (greedyTake w n chs).2.flatten = chs.flatten := by
  induction chs generalizing n with
  | nil => rfl
  | cons r rest ih =>
    simp only [greedyTake]
    by_cases h : n + r.length ≤ w
    · simp only [h, if_true, reduceIte, List.flatten_cons, List.append_assoc]
      rw [ih (n + r.length)]
    · simp [h]

theorem greedyTake_mem_fst {w n : Nat} {chs : List (List Char)} {s : List Char}
    (h : s ∈ (greedyTake w n chs).1) : s ∈ chs := by
  induction chs generalizing n with
  | nil => simp [greedyTake] at h
  | cons r rest ih =>
    simp only [greedyTake] at h
    by_cases hc : n + r.length ≤ w
    · rw [if_pos hc] at h
      rcases List.mem_cons.mp h with h1 | h1
      · exact h1 ▸ List.mem_cons_self r rest
      · exact List.mem_cons_of_mem _ (ih h1)
    · rw [if_neg hc] at h
      simp at h

theorem greedyTake_mem_snd {w n : Nat} {chs : List (List Char)} {s : List Char}
    (h : s ∈ (greedyTake w n chs).2) : s ∈ chs := by
  induction chs generalizing n with
  | nil => simp [greedyTake] at h
  | cons r rest ih =>
    simp only [greedyTake] at h
    by_cases hc : n + r.length ≤ w
    · rw [if_pos hc] at h
      exact List.mem_cons_of_mem _ (ih h)
    · rw [if_neg hc] at h
      exact h

theorem greedyTake_snd_cons {w n : Nat} {chs : List (List Char)}
    {r : List Char} {rest : List (List Char)}
    (h : (greedyTake w n chs).2 = r :: rest) :
    w < n + totalLen (greedyTake w n chs).1 + r.length := by
  induction chs generalizing n with
  | nil => simp [greedyTake] at h
  | cons q qrest ih =>
    simp only [greedyTake] at h ⊢
    by_cases hc : n + q.length ≤ w
    · rw [if_pos hc] at h
      rw [if_pos hc]
      have := ih (n := n + q.length) h
      simp only [totalLen, List.map_cons, List.sum_cons] at this ⊢
      omega
    · rw [if_neg hc] at h
      rw [if_neg hc]
      injection h with h1 h2
      subst h1
      simp only [totalLen, List.map_nil, List.sum_nil]
      omega

theorem totalLen_eq_length_flatten (chs : List (List Char)) :
    totalLen chs = chs.flatten.length := by
  simp [totalLen, List.length_flatten]

theorem filterNW_cons (c : Char) (l : List Char) :
    filterNW (c :: l) = if pyWs c then filterNW l else c :: filterNW l := by
  simp only [filterNW, List.filter_cons]
  cases h : pyWs c <;> simp [h]

theorem dropLeadingWs_cases (hl : Bool) (chs : List (List Char)) :
    dropLeadingWs hl chs = chs ∨
      ∃ r rest, chs = r :: rest ∧ isWsChunk r = true ∧ dropLeadingWs hl chs = rest := by
  cases chs with
  | nil => left; rfl
  | cons r rest =>
    simp only [dropLeadingWs]
    by_cases h : (hl && isWsChunk r) = true
    · right
      exact ⟨r, rest, rfl, (Bool.and_eq_true _ _).mp h |>.2, by rw [if_pos h]⟩
    · left; rw [if_neg h]

theorem dropLeadingWs_mem {hl : Bool} {chs : List (List Char)} :
    ∀ s ∈ dropLeadingWs hl chs, s ∈ chs := by
  intro s hs
  rcases dropLeadingWs_cases hl chs with h | ⟨r, rest, hchs, _, h⟩
  · exact h ▸ hs
  · rw [hchs]
    exact List.mem_cons_of_mem _ (h ▸ hs)

theorem dropLeadingWs_filterNW (hl : Bool) (chs : List (List Char)) :
    filterNW (dropLeadingWs hl chs).flatten = filterNW chs.flatten := by
  rcases dropLeadingWs_cases hl chs with h | ⟨r, rest, hchs, hws, h⟩
  · rw [h]
  · rw [h, hchs, List.flatten_cons, filterNW_append, filterNW_of_isWsChunk hws,
      List.nil_append]

theorem handleLongWord_flatten (w : Nat) (p : List (List Char) × List (List Char)) :
    (handleLongWord w p).1.flatten ++ (handleLongWord w p).2.flatten =
      p.1.flatten ++ p.2.flatten := by
  obtain ⟨a, b⟩ := p
  cases b with
  | nil => rfl
  | cons r rest =>
    simp only [handleLongWord]
    by_cases h : w < r.length
    · rw [if_pos h]
      simp only [List.flatten_cons, List.flatten_append, List.flatten_cons,
        List.flatten_nil, List.append_nil, List.append_assoc]
      rw [← List.append_assoc (List.take _ r), List.take_append_drop]
    · rw [if_neg h]

theorem handleLongWord_snd_ne {w : Nat} {p : List (List Char) × List (List Char)}
    (hw : 1 ≤ w) (hne : ∀ s ∈ p.2, s ≠ []) :
    ∀ s ∈ (handleLongWord w p).2, s ≠ [] := by
  obtain ⟨a, b⟩ := p
  cases b with
  | nil => simp [handleLongWord]
  | cons r rest =>
    simp only [handleLongWord] at hne ⊢
    by_cases h : w < r.length
    · rw [if_pos h]
      intro s hs
      rcases List.mem_cons.mp hs with h1 | h1
      · subst h1
        intro hcon
        have hlen := congrArg List.length hcon
        simp only [List.length_drop, List.length_nil] at hlen
        have : ¬ w < 1 := by omega
        rw [if_neg this] at hlen
        omega
      · exact hne s (List.mem_cons_of_mem _ h1)
    · rw [if_neg h]
      exact hne

theorem dropTrailingWs_filterNW (cur : List (List Char)) :
    filterNW (dropTrailingWs cur).flatten = filterNW cur.flatten := by
  simp only [dropTrailingWs]
  cases h : cur.getLast? with
  | none => rfl
  | some last =>
    show filterNW (if isWsChunk last = true then cur.dropLast else cur).flatten =
      filterNW cur.flatten
    by_cases hws : isWsChunk last = true
    · rw [if_pos hws]
      obtain ⟨pre, hpre⟩ := List.getLast?_eq_some_iff.mp h
      rw [hpre, List.dropLast_concat, List.flatten_append, filterNW_append]
      simp [filterNW_of_isWsChunk hws]
    · rw [if_neg hws]

theorem buildLine_filterNW (w : Nat) (hl : Bool) (chs : List (List Char)) :
    filterNW (buildLine w hl chs).1.flatten ++ filterNW (buildLine w hl chs).2.flatten =
      filterNW chs.flatten := by
  simp only [buildLine]
  rw [dropTrailingWs_filterNW, ← filterNW_append, handleLongWord_flatten,
    greedyTake_flatten, dropLeadingWs_filterNW]

theorem buildLine_snd_ne {w : Nat} (hl : Bool) {chs : List (List Char)}
    (hw : 1 ≤ w) (hne : ∀ s ∈ chs, s ≠ []) :
    ∀ s ∈ (buildLine w hl chs).2, s ≠ [] := by
  simp only [buildLine]
  exact handleLongWord_snd_ne hw
    (fun s hs => hne s (dropLeadingWs_mem s (greedyTake_mem_snd hs)))

theorem totalLen_pos {chs : List (List Char)} (hne : ∀ s ∈ chs, s ≠ [])
    (h : chs ≠ []) : 1 ≤ totalLen chs := by
  cases chs with
  | nil => exact absurd rfl h
  | cons a b =>
    have ha : a ≠ [] := hne a (List.mem_cons_self a b)
    have : 0 < a.length := List.length_pos.mpr ha
    simp only [totalLen, List.map_cons, List.sum_cons]
    omega

theorem stagePartition (w : Nat) (d : List (List Char)) :
    totalLen (handleLongWord w (greedyTake w 0 d)).1 +
      totalLen (handleLongWord w (greedyTake w 0 d)).2 = totalLen d := by
  rw [totalLen_eq_length_flatten, totalLen_eq_length_flatten, totalLen_eq_length_flatten]
  have h1 := congrArg List.length (handleLongWord_flatten w (greedyTake w 0 d))
  have h2 := congrArg List.length (greedyTake_flatten w 0 d)
  simp only [List.length_append] at h1 h2
  omega

theorem stageFstPos {w : Nat} (hw : 1 ≤ w) {d : List (List Char)}
    (hne : ∀ s ∈ d, s ≠ []) (hd : d ≠ []) :
    1 ≤ totalLen (handleLongWord w (greedyTake w 0 d)).1 := by
  cases hg2 : (greedyTake w 0 d).2 with
  | nil =>
    have hfst : (handleLongWord w (greedyTake w 0 d)).1 = (greedyTake w 0 d).1 := by
      simp only [handleLongWord, hg2]
    have hflat := greedyTake_flatten w 0 d
    rw [hg2] at hflat
    simp only [List.flatten_nil, List.append_nil] at hflat
    rw [hfst, totalLen_eq_length_flatten, hflat, ← totalLen_eq_length_flatten]
    exact totalLen_pos hne hd
  | cons r rest =>
    by_cases hlong : w < r.length
    · have hfst : (handleLongWord w (greedyTake w 0 d)).1 =
          (greedyTake w 0 d).1 ++
            [r.take (if w < 1 then 1 else w - totalLen (greedyTake w 0 d).1)] := by
        simp only [handleLongWord, hg2]
        rw [if_pos hlong]
      rw [hfst]
      have hnw : ¬ w < 1 := by omega
      rw [if_neg hnw]
      simp only [totalLen, List.map_append, List.sum_append, List.map_cons,
        List.sum_cons, List.map_nil, List.sum_nil, List.length_take]
      omega
    · have hfst : (handleLongWord w (greedyTake w 0 d)).1 = (greedyTake w 0 d).1 := by
        simp only [handleLongWord, hg2]
        rw [if_neg hlong]
      rw [hfst]
      have := greedyTake_snd_cons hg2
      simp only [totalLen] at this ⊢
      omega

theorem buildLine_totalLen_lt {w : Nat} (hl : Bool) {chs : List (List Char)}
    (hw : 1 ≤ w) (hne : ∀ s ∈ chs, s ≠ []) (hchs : chs ≠ []) :
    totalLen (buildLine w hl chs).2 < totalLen chs := by
  show totalLen (handleLongWord w (greedyTake w 0 (dropLeadingWs hl chs))).2 < totalLen chs
  have hpart := stagePartition w (dropLeadingWs hl chs)
  rcases dropLeadingWs_cases hl chs with hd | ⟨r, rest, hcc, hws, hd⟩
  · -- nothing dropped: the produced line holds at least one character
    rw [hd] at hpart
    rw [hd]
    have hone := stageFstPos hw hne hchs
    omega
  · -- a whitespace chunk was dropped; it is non-empty, so the total shrinks
    have hrne : r ≠ [] := hne r (hcc ▸ List.mem_cons_self r rest)
    have hrlen : 1 ≤ r.length := List.length_pos.mpr hrne
    have htot : totalLen chs = r.length + totalLen rest := by
      rw [hcc]; simp [totalLen]
    rw [hd] at hpart
    rw [hd]
    omega

theorem wrapLoop_filterNW {w : Nat} (hw : 1 ≤ w) :
    ∀ fuel (hl : Bool) (chs : List (List Char)), (∀ s ∈ chs, s ≠ []) →
      totalLen chs < fuel →
      filterNW (wrapLoop w fuel hl chs).flatten = filterNW chs.flatten := by
  intro fuel
  induction fuel with
  | zero => intro hl chs hne hf; omega
  | succ fuel ih =>
    intro hl chs hne hf
    cases chs with
    | nil => rfl
    | cons c0 rest0 =>
      have hlt := buildLine_totalLen_lt hl hw hne (by simp)
      have hne2 := buildLine_snd_ne hl hw hne
      have hpart := buildLine_filterNW w hl (c0 :: rest0)
      simp only [wrapLoop]
      by_cases hemp : (buildLine w hl (c0 :: rest0)).1.isEmpty
      · rw [if_pos hemp]
        rw [ih hl _ hne2 (by omega)]
        have h1 : (buildLine w hl (c0 :: rest0)).1 = [] := by
          simpa [List.isEmpty_iff] using hemp
        rw [h1] at hpart
        simpa using hpart
      · rw [if_neg hemp]
        simp only [List.flatten_cons, filterNW_append]
        rw [ih true _ hne2 (by omega)]
        simpa [List.flatten_cons, filterNW_append] using hpart

theorem filterNW_replicate_space (n : Nat) : filterNW (List.replicate n ' ') = [] := by
  induction n with
  | zero => rfl
  | succ n ih => rw [List.replicate_succ, filterNW_cons, if_pos (by decide)]; exact ih

theorem filterNW_expandTabs8 (col : Nat) (cs : List Char) :
    filterNW (expandTabs8 col cs) = filterNW cs := by
  induction cs generalizing col with
  | nil => rfl
  | cons c cs ih =>
    simp only [expandTabs8]
    by_cases h1 : c = '\t'
    · rw [if_pos h1, filterNW_append, filterNW_replicate_space, List.nil_append, ih]
      subst h1
      rw [filterNW_cons, if_pos (by decide)]
    · rw [if_neg h1]
      by_cases h2 : (c = '\n' || c = '\r') = true
      · rw [if_pos h2, filterNW_cons, filterNW_cons, ih]
      · rw [if_neg h2, filterNW_cons, filterNW_cons, ih]

theorem filterNW_munge (cs : List Char) : filterNW (munge cs) = filterNW cs := by
  rw [munge]
  have hmap : ∀ l : List Char,
      filterNW (l.map (fun c => if pyWs c then ' ' else c)) = filterNW l := by
    intro l
    induction l with
    | nil => rfl
    | cons c l ihl =>
      simp only [List.map_cons]
      by_cases h : pyWs c = true
      · rw [if_pos h, filterNW_cons, if_pos (by decide), filterNW_cons, if_pos h, ihl]
      · rw [if_neg h, filterNW_cons, filterNW_cons, ihl]
  rw [hmap, filterNW_expandTabs8]

theorem pywrap_filterNW {w : Nat} (hw : 1 ≤ w) (text : List Char) :
    filterNW (pywrap w text).flatten = filterNW text := by
  rw [pywrap, wrapLoop_filterNW hw _ _ _ chunksOf_ne_nil (by omega),
    chunksOf_flatten, filterNW_munge]

theorem pywrap_ne_nil {w : Nat} (hw : 1 ≤ w) {text : List Char}
    (h : filterNW text ≠ []) : pywrap w text ≠ [] := by
  intro hcon
  apply h
  rw [← pywrap_filterNW hw text, hcon]
  rfl

theorem clampCpl_pos (c0 : Nat) (adj : ℤ) : 1 ≤ clampCpl c0 adj := by
  simp only [clampCpl]
  omega

theorem tryOffsets_eq_some {W : List Char → ℤ → ℚ} {mW mH : ℚ} {text : List Char}
    {lc c0 : Nat} {fs : ℤ} :
    ∀ {l : List ℤ} {fs0 : ℤ} {cpl : Nat},
      tryOffsets W mW mH text lc c0 fs l = some (fs0, cpl) →
      fs0 = fs ∧ 1 ≤ cpl ∧ (pywrap cpl text).length = lc ∧
        maxLineWidth W fs (pywrap cpl text) ≤ mW ∧ textHeightQ lc fs ≤ mH := by
  intro l
  induction l with
  | nil => intro fs0 cpl h; simp [tryOffsets] at h
  | cons adj rest ih =>
    intro fs0 cpl h
    simp only [tryOffsets] at h
    by_cases h1 : (pywrap (clampCpl c0 adj) text).length ≠ lc
    · rw [if_pos h1] at h
      exact ih h
    · rw [if_neg h1] at h
      by_cases h2 : maxLineWidth W fs (pywrap (clampCpl c0 adj) text) ≤ mW ∧
          textHeightQ lc fs ≤ mH
      · rw [if_pos h2] at h
        have hp := Option.some.inj h
        injection hp with hfs hcpl
        subst hfs
        subst hcpl
        exact ⟨rfl, clampCpl_pos c0 adj, by omega, h2.1, h2.2⟩
      · rw [if_neg h2] at h
        exact ih h

theorem tryFontSizesAux_eq_some {W : List Char → ℤ → ℚ} {mW mH : ℚ} {text : List Char}
    {lc c0 : Nat} {minFs : ℤ} :
    ∀ {fuel : Nat} {fs fs0 : ℤ} {cpl : Nat},
      tryFontSizesAux W mW mH text lc c0 minFs fuel fs = some (fs0, cpl) →
      minFs ≤ fs0 ∧ 1 ≤ cpl ∧ (pywrap cpl text).length = lc ∧
        maxLineWidth W fs0 (pywrap cpl text) ≤ mW ∧ textHeightQ lc fs0 ≤ mH := by
  intro fuel
  induction fuel with
  | zero => intro fs fs0 cpl h; simp [tryFontSizesAux] at h
  | succ fuel ih =>
    intro fs fs0 cpl h
    simp only [tryFontSizesAux] at h
    by_cases h1 : minFs ≤ fs
    · rw [if_pos h1] at h
      cases ho : tryOffsets W mW mH text lc c0 fs offsetList with
      | none =>
        rw [ho] at h
        exact ih h
      | some r =>
        rw [ho] at h
        have h2 : tryOffsets W mW mH text lc c0 fs offsetList = some (fs0, cpl) := by
          rw [ho]; exact h
        obtain ⟨hfs, hcpl, hlen, hwid, hht⟩ := tryOffsets_eq_some h2
        subst hfs
        exact ⟨h1, hcpl, hlen, hwid, hht⟩
    · rw [if_neg h1] at h
      simp at h

theorem tryLineCountsAux_eq_some {W : List Char → ℤ → ℚ} {mW mH : ℚ} {text : List Char}
    {initFs minFs : ℤ} :
    ∀ {fuel lc0 : Nat} {fs0 : ℤ} {cpl : Nat},
      tryLineCountsAux W mW mH text initFs minFs fuel lc0 = some (fs0, cpl) →
      ∃ lc, lc0 ≤ lc ∧ lc ≤ 3 ∧ minFs ≤ fs0 ∧ 1 ≤ cpl ∧
        (pywrap cpl text).length = lc ∧
        maxLineWidth W fs0 (pywrap cpl text) ≤ mW ∧ textHeightQ lc fs0 ≤ mH := by
  intro fuel
  induction fuel with
  | zero => intro lc0 fs0 cpl h; simp [tryLineCountsAux] at h
  | succ fuel ih =>
    intro lc0 fs0 cpl h
    simp only [tryLineCountsAux] at h
    by_cases h1 : lc0 ≤ 3
    · rw [if_pos h1] at h
      cases ho : tryFontSizes W mW mH text lc0 ((text.length + lc0 - 1) / lc0) initFs minFs with
      | none =>
        rw [ho] at h
        obtain ⟨lc, hge, hle, hrest⟩ := ih h
        exact ⟨lc, by omega, hle, hrest⟩
      | some r =>
        rw [ho] at h
        have h2 : tryFontSizes W mW mH text lc0 ((text.length + lc0 - 1) / lc0) initFs minFs =
            some (fs0, cpl) := by
          rw [ho]; exact h
        obtain ⟨hmin, hcpl, hlen, hwid, hht⟩ := tryFontSizesAux_eq_some h2
        exact ⟨lc0, le_refl lc0, h1, hmin, hcpl, hlen, hwid, hht⟩
    · rw [if_neg h1] at h
      simp at h

theorem searchAccept_eq_some {W : List Char → ℤ → ℚ} {mW mH : ℚ} {text : List Char}
    {initFs minFs fs0 : ℤ} {cpl : Nat}
    (h : searchAccept W mW mH text initFs minFs = some (fs0, cpl)) :
    ∃ lc, 1 ≤ lc ∧ lc ≤ 3 ∧ minFs ≤ fs0 ∧ 1 ≤ cpl ∧
      (pywrap cpl text).length = lc ∧
      maxLineWidth W fs0 (pywrap cpl text) ≤ mW ∧ textHeightQ lc fs0 ≤ mH :=
  tryLineCountsAux_eq_some h

theorem findSomeAppend {α β : Type} (f : α → Option β) (l1 l2 : List α) :
    (l1 ++ l2).findSome? f =
      match l1.findSome? f with
      | some b => some b
      | none => l2.findSome? f := by
  induction l1 with
  | nil => rfl
  | cons a l ih =>
    simp only [List.cons_append, List.findSome?_cons]
    cases f a
    · exact ih
    · rfl

theorem tryOffsets_eq_findSome (W : List Char → ℤ → ℚ) (mW mH : ℚ) (text : List Char)
    (lc c0 : Nat) (fs : ℤ) (l : List ℤ) :
    tryOffsets W mW mH text lc c0 fs l =
      (l.map fun adj => (lc, fs, clampCpl c0 adj)).findSome? (specAccept W mW mH text) := by
  induction l with
  | nil => rfl
  | cons adj rest ih =>
    simp only [tryOffsets, List.map_cons, List.findSome?_cons, specAccept]
    by_cases h1 : (pywrap (clampCpl c0 adj) text).length ≠ lc
    · rw [if_pos h1, if_pos h1]
      exact ih
    · rw [if_neg h1, if_neg h1]
      by_cases h2 : maxLineWidth W fs (pywrap (clampCpl c0 adj) text) ≤ mW ∧
          textHeightQ lc fs ≤ mH
      · rw [if_pos h2, if_pos h2]
      · rw [if_neg h2, if_neg h2]
        exact ih

theorem tryFontSizesAux_eq_findSome (W : List Char → ℤ → ℚ) (mW mH : ℚ)
    (text : List Char) (lc c0 : Nat) (minFs : ℤ) :
    ∀ fuel (fs : ℤ),
      tryFontSizesAux W mW mH text lc c0 minFs fuel fs =
        ((specFontSizesAux minFs fuel fs).flatMap fun fsz =>
          offsetList.map fun adj => (lc, fsz, clampCpl c0 adj)).findSome?
            (specAccept W mW mH text) := by
  intro fuel
  induction fuel with
  | zero => intro fs; rfl
  | succ fuel ih =>
    intro fs
    simp only [tryFontSizesAux, specFontSizesAux]
    by_cases h1 : minFs ≤ fs
    · rw [if_pos h1, if_pos h1, List.flatMap_cons, findSomeAppend,
        ← tryOffsets_eq_findSome]
      cases tryOffsets W mW mH text lc c0 fs offsetList with
      | some r => rfl
      | none => exact ih (fs - 5)
    · rw [if_neg h1, if_neg h1]
      rfl

theorem searchAccept_eq_findSome (W : List Char → ℤ → ℚ) (mW mH : ℚ)
    (text : List Char) (initFs minFs : ℤ) :
    searchAccept W mW mH text initFs minFs =
      (specCandidates text.length initFs minFs).findSome? (specAccept W mW mH text) := by
  have hstep : searchAccept W mW mH text initFs minFs =
      (match tryFontSizes W mW mH text 1 ((text.length + 1 - 1) / 1) initFs minFs with
       | some r => some r
       | none =>
         match tryFontSizes W mW mH text 2 ((text.length + 2 - 1) / 2) initFs minFs with
         | some r => some r
         | none =>
           match tryFontSizes W mW mH text 3 ((text.length + 3 - 1) / 3) initFs minFs with
           | some r => some r
           | none => none) := rfl
  rw [hstep]
  simp only [specCandidates, List.flatMap_cons, List.flatMap_nil, List.append_nil,
    findSomeAppend]
  have hF : ∀ lc : Nat,
      ((specFontSizes initFs minFs).flatMap fun fsz =>
        offsetList.map fun adj => (lc, fsz, clampCpl ((text.length + lc - 1) / lc) adj)).findSome?
          (specAccept W mW mH text) =
        tryFontSizes W mW mH text lc ((text.length + lc - 1) / lc) initFs minFs :=
    fun lc => (tryFontSizesAux_eq_findSome W mW mH text lc _ minFs _ initFs).symm
  rw [hF 1, hF 2, hF 3]
  cases tryFontSizes W mW mH text 3 ((text.length + 3 - 1) / 3) initFs minFs <;>
    cases tryFontSizes W mW mH text 2 ((text.length + 2 - 1) / 2) initFs minFs <;>
      cases tryFontSizes W mW mH text 1 ((text.length + 1 - 1) / 1) initFs minFs <;> rfl

theorem tryOffsetsCount_fst (W : List Char → ℤ → ℚ) (mW mH : ℚ) (text : List Char)
    (lc c0 : Nat) (fs : ℤ) :
    ∀ l : List ℤ, (tryOffsetsCount W mW mH text lc c0 fs l).1 =
      tryOffsets W mW mH text lc c0 fs l := by
  intro l
  induction l with
  | nil => rfl
  | cons adj rest ih =>
    simp only [tryOffsetsCount, tryOffsets]
    by_cases h1 : (pywrap (clampCpl c0 adj) text).length ≠ lc
    · rw [if_pos h1, if_pos h1]
      exact ih
    · rw [if_neg h1, if_neg h1]
      by_cases h2 : maxLineWidth W fs (pywrap (clampCpl c0 adj) text) ≤ mW ∧
          textHeightQ lc fs ≤ mH
      · rw [if_pos h2, if_pos h2]
      · rw [if_neg h2, if_neg h2]
        exact ih

theorem tryOffsetsCount_snd_le (W : List Char → ℤ → ℚ) (mW mH : ℚ) (text : List Char)
    (lc c0 : Nat) (fs : ℤ) :
    ∀ l : List ℤ, (tryOffsetsCount W mW mH text lc c0 fs l).2 ≤ l.length * lc := by
  intro l
  induction l with
  | nil => simp [tryOffsetsCount]
  | cons adj rest ih =>
    simp only [tryOffsetsCount, List.length_cons, Nat.succ_mul]
    by_cases h1 : (pywrap (clampCpl c0 adj) text).length ≠ lc
    · rw [if_pos h1]
      omega
    · rw [if_neg h1]
      push_neg at h1
      by_cases h2 : maxLineWidth W fs (pywrap (clampCpl c0 adj) text) ≤ mW ∧
          textHeightQ lc fs ≤ mH
      · rw [if_pos h2]
        omega
      · rw [if_neg h2]
        simp only [h1]
        omega

theorem tryFontSizesCountAux_fst (W : List Char → ℤ → ℚ) (mW mH : ℚ) (text : List Char)
    (lc c0 : Nat) (minFs : ℤ) :
    ∀ fuel (fs : ℤ), (tryFontSizesCountAux W mW mH text lc c0 minFs fuel fs).1 =
      tryFontSizesAux W mW mH text lc c0 minFs fuel fs := by
  intro fuel
  induction fuel with
  | zero => intro fs; rfl
  | succ fuel ih =>
    intro fs
    simp only [tryFontSizesCountAux, tryFontSizesAux]
    by_cases h1 : minFs ≤ fs
    · rw [if_pos h1, if_pos h1, ← tryOffsetsCount_fst W mW mH text lc c0 fs offsetList]
      cases hx : (tryOffsetsCount W mW mH text lc c0 fs offsetList).1 with
      | some r => rfl
      | none => exact ih (fs - 5)
    · rw [if_neg h1, if_neg h1]

theorem tryFontSizesCountAux_snd_le (W : List Char → ℤ → ℚ) (mW mH : ℚ)
    (text : List Char) (lc c0 : Nat) (minFs : ℤ) :
    ∀ fuel (fs : ℤ), (tryFontSizesCountAux W mW mH text lc c0 minFs fuel fs).2 ≤
      (specFontSizesAux minFs fuel fs).length * (5 * lc) := by
  intro fuel
  induction fuel with
  | zero => intro fs; simp [tryFontSizesCountAux, specFontSizesAux]
  | succ fuel ih =>
    intro fs
    simp only [tryFontSizesCountAux, specFontSizesAux]
    by_cases h1 : minFs ≤ fs
    · rw [if_pos h1, if_pos h1]
      have ho5 : (tryOffsetsCount W mW mH text lc c0 fs offsetList).2 ≤ 5 * lc := by
        have := tryOffsetsCount_snd_le W mW mH text lc c0 fs offsetList
        simpa [offsetList] using this
      cases hx : (tryOffsetsCount W mW mH text lc c0 fs offsetList).1 with
      | some r =>
        rw [List.length_cons, Nat.succ_mul]
        show (tryOffsetsCount W mW mH text lc c0 fs offsetList).2 ≤
          (specFontSizesAux minFs fuel (fs - 5)).length * (5 * lc) + 5 * lc
        omega
      | none =>
        rw [List.length_cons, Nat.succ_mul]
        show (tryOffsetsCount W mW mH text lc c0 fs offsetList).2 +
            (tryFontSizesCountAux W mW mH text lc c0 minFs fuel (fs - 5)).2 ≤
          (specFontSizesAux minFs fuel (fs - 5)).length * (5 * lc) + 5 * lc
        have := ih (fs - 5)
        omega
    · rw [if_neg h1, if_neg h1]
      simp

theorem tryLineCountsCountAux_fst (W : List Char → ℤ → ℚ) (mW mH : ℚ)
    (text : List Char) (initFs minFs : ℤ) :
    ∀ fuel (lc : Nat), (tryLineCountsCountAux W mW mH text initFs minFs fuel lc).1 =
      tryLineCountsAux W mW mH text initFs minFs fuel lc := by
  intro fuel
  induction fuel with
  | zero => intro lc; rfl
  | succ fuel ih =>
    intro lc
    simp only [tryLineCountsCountAux, tryLineCountsAux, tryFontSizes]
    by_cases h1 : lc ≤ 3
    · rw [if_pos h1, if_pos h1,
        ← tryFontSizesCountAux_fst W mW mH text lc ((text.length + lc - 1) / lc) minFs
          (fontFuel initFs minFs) initFs]
      cases hx : (tryFontSizesCountAux W mW mH text lc ((text.length + lc - 1) / lc) minFs
          (fontFuel initFs minFs) initFs).1 with
      | some r => rfl
      | none => exact ih (lc + 1)
    · rw [if_neg h1, if_neg h1]

theorem tryLineCountsCountAux_snd_zero (W : List Char → ℤ → ℚ) (mW mH : ℚ)
    (text : List Char) (initFs minFs : ℤ) (fuel : Nat) {lc : Nat} (h : ¬ lc ≤ 3) :
    (tryLineCountsCountAux W mW mH text initFs minFs fuel lc).2 = 0 := by
  cases fuel with
  | zero => rfl
  | succ fuel =>
    simp only [tryLineCountsCountAux]
    rw [if_neg h]

theorem tryLineCountsCountAux_snd_step (W : List Char → ℤ → ℚ) (mW mH : ℚ)
    (text : List Char) (initFs minFs : ℤ) (fuel : Nat) {lc : Nat} (h : lc ≤ 3) :
    (tryLineCountsCountAux W mW mH text initFs minFs (fuel + 1) lc).2 ≤
      (tryFontSizesCountAux W mW mH text lc ((text.length + lc - 1) / lc) minFs
        (fontFuel initFs minFs) initFs).2 +
      (tryLineCountsCountAux W mW mH text initFs minFs fuel (lc + 1)).2 := by
  simp only [tryLineCountsCountAux]
  rw [if_pos h]
  cases hx : (tryFontSizesCountAux W mW mH text lc ((text.length + lc - 1) / lc) minFs
      (fontFuel initFs minFs) initFs).1 with
  | some r =>
    show (tryFontSizesCountAux W mW mH text lc ((text.length + lc - 1) / lc) minFs
      (fontFuel initFs minFs) initFs).2 ≤ _
    omega
  | none =>
    show (tryFontSizesCountAux W mW mH text lc ((text.length + lc - 1) / lc) minFs
        (fontFuel initFs minFs) initFs).2 +
      (tryLineCountsCountAux W mW mH text initFs minFs fuel (lc + 1)).2 ≤ _
    omega

theorem searchCount_le (W : List Char → ℤ → ℚ) (mW mH : ℚ) (text : List Char)
    (initFs minFs : ℤ) :
    searchCount W mW mH text initFs minFs ≤ 30 * (specFontSizes initFs minFs).length := by
  have hF : ∀ lc c0 : Nat,
      (tryFontSizesCountAux W mW mH text lc c0 minFs (fontFuel initFs minFs) initFs).2 ≤
        (specFontSizes initFs minFs).length * (5 * lc) := fun lc c0 =>
    tryFontSizesCountAux_snd_le W mW mH text lc c0 minFs (fontFuel initFs minFs) initFs
  have c1 : (tryLineCountsCountAux W mW mH text initFs minFs 4 1).2 ≤
      (tryFontSizesCountAux W mW mH text 1 ((text.length + 1 - 1) / 1) minFs
        (fontFuel initFs minFs) initFs).2 +
      (tryLineCountsCountAux W mW mH text initFs minFs 3 2).2 :=
    tryLineCountsCountAux_snd_step W mW mH text initFs minFs 3 (by omega)
  have c2 : (tryLineCountsCountAux W mW mH text initFs minFs 3 2).2 ≤
      (tryFontSizesCountAux W mW mH text 2 ((text.length + 2 - 1) / 2) minFs
        (fontFuel initFs minFs) initFs).2 +
      (tryLineCountsCountAux W mW mH text initFs minFs 2 3).2 :=
    tryLineCountsCountAux_snd_step W mW mH text initFs minFs 2 (by omega)
  have c3 : (tryLineCountsCountAux W mW mH text initFs minFs 2 3).2 ≤
      (tryFontSizesCountAux W mW mH text 3 ((text.length + 3 - 1) / 3) minFs
        (fontFuel initFs minFs) initFs).2 +
      (tryLineCountsCountAux W mW mH text initFs minFs 1 4).2 :=
    tryLineCountsCountAux_snd_step W mW mH text initFs minFs 1 (by omega)
  have c4 : (tryLineCountsCountAux W mW mH text initFs minFs 1 4).2 = 0 :=
    tryLineCountsCountAux_snd_zero W mW mH text initFs minFs 1 (by omega)
  have hf1 := hF 1 ((text.length + 1 - 1) / 1)
  have hf2 := hF 2 ((text.length + 2 - 1) / 2)
  have hf3 := hF 3 ((text.length + 3 - 1) / 3)
  simp only [searchCount]
  omega

theorem specFontSizesAux_nil {minFs : ℤ} (fuel : Nat) {fs : ℤ} (h : fs < minFs) :
    specFontSizesAux minFs fuel fs = [] := by
  cases fuel with
  | zero => rfl
  | succ fuel =>
    simp only [specFontSizesAux]
    rw [if_neg (by omega)]

theorem specFontSizesAux_length {minFs : ℤ} :
    ∀ {fuel : Nat} {fs : ℤ}, minFs ≤ fs → (fs - minFs).toNat < fuel →
      ((specFontSizesAux minFs fuel fs).length : ℤ) = (fs - minFs) / 5 + 1 := by
  intro fuel
  induction fuel with
  | zero => intro fs h1 h2; omega
  | succ fuel ih =>
    intro fs h1 h2
    simp only [specFontSizesAux]
    rw [if_pos h1]
    simp only [List.length_cons]
    by_cases h3 : minFs ≤ fs - 5
    · have := ih h3 (by omega)
      push_cast at this ⊢
      omega
    · rw [specFontSizesAux_nil fuel (by omega)]
      simp only [List.length_nil]
      push_cast
      omega

theorem specFontSizes_length {initFs minFs : ℤ} (h : minFs ≤ initFs) :
    ((specFontSizes initFs minFs).length : ℤ) = (initFs - minFs) / 5 + 1 :=
  specFontSizesAux_length h (by simp only [fontFuel]; omega)

theorem joinSpace_filterNW (ls : List (List Char)) :
    filterNW (joinSpace ls) = filterNW ls.flatten := by
  induction ls with
  | nil => rfl
  | cons a ls ih =>
    cases ls with
    | nil => rfl
    | cons b t =>
      simp only [joinSpace, List.intersperse_cons_cons, List.flatten_cons,
        filterNW_append] at ih ⊢
      rw [ih]
      have hsp : filterNW [' '] = [] := by decide
      rw [hsp, List.nil_append]

theorem calculateFontSize_of_some {W : List Char → ℤ → ℚ} {mW mH : ℚ}
    {text : List Char} {initFs minFs fs : ℤ} {cpl : Nat}
    (h : searchAccept W mW mH text initFs minFs = some (fs, cpl)) :
    calculateFontSize W mW mH text initFs minFs = (fs, cpl) := by
  rw [calculateFontSize, h]

theorem calculateFontSize_of_none {W : List Char → ℤ → ℚ} {mW mH : ℚ}
    {text : List Char} {initFs minFs : ℤ}
    (h : searchAccept W mW mH text initFs minFs = none) :
    calculateFontSize W mW mH text initFs minFs =
      (minFs, max 1 ((text.length + 2) / 3)) := by
  rw [calculateFontSize, h]

theorem generateLines_of_some {W : List Char → ℤ → ℚ} {mW mH : ℚ}
    {text : List Char} {initFs minFs fs : ℤ} {cpl : Nat}
    (h : searchAccept W mW mH text initFs minFs = some (fs, cpl)) :
    generateLines W mW mH text initFs minFs = pywrap cpl text := by
  obtain ⟨lc, h1, h3, _, _, hlen, _, _⟩ := searchAccept_eq_some h
  rw [generateLines, calculateFontSize_of_some h]
  show wrappedLines text cpl = pywrap cpl text
  have ht : truncatedLines text cpl = pywrap cpl text := by
    rw [truncatedLines, if_neg (by omega)]
  rw [wrappedLines, ht, if_neg ?hc]
  case hc =>
    simp only [Bool.and_eq_true, List.isEmpty_iff, not_and]
    intro hx
    rw [hx] at hlen
    simp at hlen
    omega

/-- Claim C1: the fit search enumerates candidates in exactly the stated
order — line counts 1, 2, 3 outermost, font sizes descending from
`initialFontSize` by 5 to `minFontSize`, budget offsets `[0, -1, +1, -2,
+2]` applied to `ceil(len(text) / lineCount)` clamped to at least 1 — a
candidate wrapping to a different line count is skipped, and the first
candidate fitting both box constraints is returned immediately as the
result, with `fitGuaranteed = true`.  Stated as: the nested-loop search
equals the first success of the acceptance test over the flat spec-side
candidate list, and the returned pair becomes the engine's result. -/
theorem C1_search_order (W : List Char → ℤ → ℚ) (mW mH : ℚ) (text : List Char)
    (initFs minFs : ℤ) :
    searchAccept W mW mH text initFs minFs =
      (specCandidates text.length initFs minFs).findSome? (specAccept W mW mH text) ∧
    fitGuaranteed W mW mH text initFs minFs =
      ((specCandidates text.length initFs minFs).findSome?
        (specAccept W mW mH text)).isSome ∧
    (∀ r : ℤ × Nat, searchAccept W mW mH text initFs minFs = some r →
      calculateFontSize W mW mH text initFs minFs = r) := by
  refine ⟨searchAccept_eq_findSome W mW mH text initFs minFs, ?_, ?_⟩
  · rw [fitGuaranteed, searchAccept_eq_findSome]
  · intro r h
    rw [calculateFontSize, h]

/-- Witness for C1 at a concrete accepted input. -/
theorem C1_search_order_witness :
    searchAccept (fun _ _ => (0 : ℚ)) 300 20000 ('x' :: 'y' :: 'z' :: []) 90 70 =
      some (90, 3) ∧
    calculateFontSize (fun _ _ => (0 : ℚ)) 300 20000 ('x' :: 'y' :: 'z' :: []) 90 70 =
      (90, 3) :=
  ⟨by decide,
   (C1_search_order (fun _ _ => (0 : ℚ)) 300 20000 ('x' :: 'y' :: 'z' :: []) 90 70).2.2
     (90, 3) (by decide)⟩

/-- Claim C2: every accepted result (`fitGuaranteed = true`) satisfies the
box constraints when its text is re-wrapped at the returned
`charsPerLine`: the maximum measured line width is at most `boxWidth`,
and `len(lines) * fontSize * 1.5` is at most `boxHeight`. -/
theorem C2_fit_validity {W : List Char → ℤ → ℚ} {mW mH : ℚ} {text : List Char}
    {initFs minFs fs : ℤ} {cpl : Nat}
    (h : searchAccept W mW mH text initFs minFs = some (fs, cpl)) :
    fitGuaranteed W mW mH text initFs minFs = true ∧
    calculateFontSize W mW mH text initFs minFs = (fs, cpl) ∧
    maxLineWidth W fs (pywrap cpl text) ≤ mW ∧
    ((pywrap cpl text).length : ℚ) * (fs : ℚ) * (3 / 2) ≤ mH := by
  obtain ⟨lc, h1, h3, hmin, hcpl, hlen, hwid, hht⟩ := searchAccept_eq_some h
  refine ⟨by rw [fitGuaranteed, h]; rfl, calculateFontSize_of_some h, hwid, ?_⟩
  rw [hlen, ← textHeightQ_eq]
  exact hht

/-- Witness for C2 at a concrete accepted input. -/
theorem C2_fit_validity_witness :
    searchAccept (fun _ _ => (0 : ℚ)) 100 10000 ('a' :: 'b' :: []) 90 70 =
      some (90, 2) ∧
    (fitGuaranteed (fun _ _ => (0 : ℚ)) 100 10000 ('a' :: 'b' :: []) 90 70 = true ∧
     calculateFontSize (fun _ _ => (0 : ℚ)) 100 10000 ('a' :: 'b' :: []) 90 70 = (90, 2) ∧
     maxLineWidth (fun _ _ => (0 : ℚ)) 90 (pywrap 2 ('a' :: 'b' :: [])) ≤ 100 ∧
     ((pywrap 2 ('a' :: 'b' :: [])).length : ℚ) * ((90 : ℤ) : ℚ) * (3 / 2) ≤ 10000) :=
  ⟨by decide, C2_fit_validity (by decide)⟩

/-- Claim C3: when no candidate is accepted, the engine returns
`fontSize = minFontSize`, `charsPerLine = max(1, (len(text) + 2) // 3)`,
the lines are the wrap at that budget truncated to at most three entries,
and `fitGuaranteed = false`; no error is raised (the embedding is total). -/
theorem C3_fallback {W : List Char → ℤ → ℚ} {mW mH : ℚ} {text : List Char}
    {initFs minFs : ℤ}
    (h : searchAccept W mW mH text initFs minFs = none)
    (h2 : filterNW text ≠ []) :
    calculateFontSize W mW mH text initFs minFs =
      (minFs, max 1 ((text.length + 2) / 3)) ∧
    generateLines W mW mH text initFs minFs =
      (pywrap (max 1 ((text.length + 2) / 3)) text).take 3 ∧
    fitGuaranteed W mW mH text initFs minFs = false := by
  refine ⟨calculateFontSize_of_none h, ?_, by rw [fitGuaranteed, h]; rfl⟩
  rw [generateLines, calculateFontSize_of_none h]
  show wrappedLines text (max 1 ((text.length + 2) / 3)) = _
  have hwne : pywrap (max 1 ((text.length + 2) / 3)) text ≠ [] :=
    pywrap_ne_nil (by omega) h2
  have ht : truncatedLines text (max 1 ((text.length + 2) / 3)) =
      (pywrap (max 1 ((text.length + 2) / 3)) text).take 3 := by
    rw [truncatedLines]
    by_cases hgt : (pywrap (max 1 ((text.length + 2) / 3)) text).length > 3
    · rw [if_pos hgt]
    · rw [if_neg hgt, List.take_of_length_le (by omega)]
  have htne : (pywrap (max 1 ((text.length + 2) / 3)) text).take 3 ≠ [] := by
    simp [List.take_eq_nil_iff, hwne]
  rw [wrappedLines, ht, if_neg (by simp [List.isEmpty_iff, htne])]

/-- Witness for C3 at a concrete input on which nothing fits. -/
theorem C3_fallback_witness :
    searchAccept (fun _ _ => (1000 : ℚ)) 1 900 ('a' :: 'b' :: []) 90 70 = none ∧
    filterNW ('a' :: 'b' :: []) ≠ [] ∧
    calculateFontSize (fun _ _ => (1000 : ℚ)) 1 900 ('a' :: 'b' :: []) 90 70 = (70, 1) ∧
    fitGuaranteed (fun _ _ => (1000 : ℚ)) 1 900 ('a' :: 'b' :: []) 90 70 = false :=
  ⟨by decide, by decide,
   (C3_fallback
     (show searchAccept (fun _ _ => (1000 : ℚ)) 1 900 ('a' :: 'b' :: []) 90 70 = none
       by decide) (by decide)).1,
   (C3_fallback
     (show searchAccept (fun _ _ => (1000 : ℚ)) 1 900 ('a' :: 'b' :: []) 90 70 = none
       by decide) (by decide)).2.2⟩

/-- Counterexample for claim C4: joining the result lines with single
spaces does not always reproduce the normalized text.  Part one: on the
fallback path the truncation to three lines drops the character `d` of
`"aaaaa b ccccc d"`.  Part two: on an accepted path a word longer than
the accepted budget is broken across lines, so the space-join inserts a
space inside `"aaaaaaaaaa"`. -/
theorem C4_counterexample :
    (searchAccept (fun _ _ => (1000 : ℚ)) 1 1000000 ("aaaaa b ccccc d".toList) 90 70 =
        none ∧
      joinSpace (generateLines (fun _ _ => (1000 : ℚ)) 1 1000000
        ("aaaaa b ccccc d".toList) 90 70) ≠ "aaaaa b ccccc d".toList) ∧
    (searchAccept (fun s _ => if 10 ≤ s.length then (1000 : ℚ) else 0) 500 1000
        ("aaaaaaaaaa".toList) 90 70 = some (90, 5) ∧
      fitGuaranteed (fun s _ => if 10 ≤ s.length then (1000 : ℚ) else 0) 500 1000
        ("aaaaaaaaaa".toList) 90 70 = true ∧
      joinSpace (generateLines (fun s _ => if 10 ≤ s.length then (1000 : ℚ) else 0)
        500 1000 ("aaaaaaaaaa".toList) 90 70) ≠ "aaaaaaaaaa".toList) := by
  refine ⟨⟨by decide, by decide⟩, by decide, by decide, by decide⟩

/-- Claim C4 as amended: on the accepted path the result lines preserve
exactly the non-whitespace characters of the text, in order (the join
may still differ from the text because a space is inserted wherever a
word longer than `charsPerLine` was broken); the fallback path may
additionally drop characters by the truncation to three lines. -/
theorem C4_amended {W : List Char → ℤ → ℚ} {mW mH : ℚ} {text : List Char}
    {initFs minFs fs : ℤ} {cpl : Nat}
    (h : searchAccept W mW mH text initFs minFs = some (fs, cpl)) :
    generateLines W mW mH text initFs minFs = pywrap cpl text ∧
    filterNW (joinSpace (pywrap cpl text)) = filterNW text := by
  obtain ⟨lc, _, _, _, hcpl, _, _, _⟩ := searchAccept_eq_some h
  exact ⟨generateLines_of_some h,
    by rw [joinSpace_filterNW, pywrap_filterNW hcpl]⟩

/-- Witness for the amended C4 at a concrete accepted input. -/
theorem C4_amended_witness :
    searchAccept (fun _ _ => (0 : ℚ)) 50 100000 ('a' :: 'b' :: 'c' :: []) 40 10 =
      some (40, 3) ∧
    filterNW (joinSpace (pywrap 3 ('a' :: 'b' :: 'c' :: []))) =
      filterNW ('a' :: 'b' :: 'c' :: []) :=
  ⟨by decide,
   (C4_amended
     (show searchAccept (fun _ _ => (0 : ℚ)) 50 100000 ('a' :: 'b' :: 'c' :: []) 40 10 =
         some (40, 3)
       by decide)).2⟩

/-- Claim C5: for every non-empty input text, the produced line sequence
has between one and three entries, on the accepted and fallback paths
alike. -/
theorem C5_line_bound {W : List Char → ℤ → ℚ} {mW mH : ℚ} {text : List Char}
    {initFs minFs : ℤ} (h : text ≠ []) :
    1 ≤ (generateLines W mW mH text initFs minFs).length ∧
    (generateLines W mW mH text initFs minFs).length ≤ 3 := by
  cases hs : searchAccept W mW mH text initFs minFs with
  | some r =>
    obtain ⟨fs, cpl⟩ := r
    obtain ⟨lc, h1, h3, _, _, hlen, _, _⟩ := searchAccept_eq_some hs
    rw [generateLines_of_some hs, hlen]
    omega
  | none =>
    rw [generateLines, calculateFontSize_of_none hs]
    show 1 ≤ (wrappedLines text (max 1 ((text.length + 2) / 3))).length ∧
      (wrappedLines text (max 1 ((text.length + 2) / 3))).length ≤ 3
    rw [wrappedLines]
    by_cases hemp : truncatedLines text (max 1 ((text.length + 2) / 3)) = []
    · rw [if_pos (by simp [List.isEmpty_iff, hemp, h])]
      simp
    · rw [if_neg (by simp [List.isEmpty_iff, hemp])]
      rw [truncatedLines] at hemp ⊢
      by_cases hgt : (pywrap (max 1 ((text.length + 2) / 3)) text).length > 3
      · rw [if_pos hgt] at hemp ⊢
        rw [List.length_take]
        omega
      · rw [if_neg hgt] at hemp ⊢
        have := List.length_pos.mpr hemp
        omega

/-- Witness for C5 at a concrete input. -/
theorem C5_line_bound_witness :
    ('a' :: [] : List Char) ≠ [] ∧
    (1 ≤ (generateLines (fun _ _ => (0 : ℚ)) 10 10000 ('a' :: []) 90 70).length ∧
     (generateLines (fun _ _ => (0 : ℚ)) 10 10000 ('a' :: []) 90 70).length ≤ 3) :=
  ⟨by decide, C5_line_bound (by decide)⟩

/-- Claim C6: a code point is classified as emoji exactly when its Unicode
general category is `So` or it lies in U+1F000–U+1F9FF inclusive; a text
has an emoji exactly when some of its code points is classified as one;
and the classification is computed once for the whole text, so the
search measures every line — emoji-free lines included — through the
provider selected by that single whole-text classification. -/
theorem C6_emoji_classification (catSo : Char → Bool)
    (mE mP : List Char → ℤ → ℚ) (avail : Bool) (mW mH : ℚ) (text : List Char)
    (initFs minFs : ℤ) :
    (∀ c : Char, isEmojiChar catSo c = true ↔
      (catSo c = true ∨ (0x1F000 ≤ c.toNat ∧ c.toNat ≤ 0x1F9FF))) ∧
    (hasEmoji catSo text = true ↔ ∃ c ∈ text, isEmojiChar catSo c = true) ∧
    calculateFontSizeFull catSo mE mP avail mW mH text initFs minFs =
      calculateFontSize (if hasEmoji catSo text && avail then mE else mP)
        mW mH text initFs minFs := by
  refine ⟨?_, ?_, ?_⟩
  · intro c
    simp [isEmojiChar]
  · simp [hasEmoji, List.any_eq_true]
  · by_cases hb : (hasEmoji catSo text && avail) = true
    · rw [if_pos hb, calculateFontSizeFull]
      congr 1
      funext line fs
      rw [getTextWidth, if_pos hb]
    · rw [if_neg hb, calculateFontSizeFull]
      congr 1
      funext line fs
      rw [getTextWidth, if_neg hb]

/-- Witness for C6 at concrete providers and an emoji-free text. -/
theorem C6_emoji_classification_witness :
    calculateFontSizeFull (fun _ => false) (fun _ _ => (7 : ℚ)) (fun _ _ => (3 : ℚ))
      true 100 10000 ('a' :: []) 90 70 =
    calculateFontSize (fun _ _ => (3 : ℚ)) 100 10000 ('a' :: []) 90 70 :=
  (C6_emoji_classification (fun _ => false) (fun _ _ => (7 : ℚ)) (fun _ _ => (3 : ℚ))
    true 100 10000 ('a' :: []) 90 70).2.2

/-- Claim C7: when loading the requested font fails, the provider falls
back to the built-in default font and continues; only when both loads
fail does it raise the terminal `FontUnavailable` error, which the
search does not catch. -/
theorem C7_font_fallback (F : Type) :
    (∀ (f : F) (d : Option F), getFont (some f) d = Except.ok f) ∧
    (∀ d : F, getFont none (some d) = Except.ok d) ∧
    (getFont none none : Except FontError F) =
      Except.error FontError.fontUnavailable :=
  ⟨fun _ _ => rfl, fun _ => rfl, rfl⟩

/-- Counterexample for claim C8: at `initialFontSize = minFontSize = 70`
the claimed bound `maxLines * ((initialFontSize - minFontSize) /
fontSizeStep) * 5` is zero, yet the search performs 18 width
measurements on thirty `a`s (each passing candidate measures one width
per line); the count even exceeds the bound with the font-size factor
corrected to the number of font sizes actually tried. -/
theorem C8_counterexample :
    3 * (((70 : ℤ) - 70) / 5).toNat * 5 <
      searchCount (fun _ _ => (1000 : ℚ)) 1 1000000 (List.replicate 30 'a') 70 70 ∧
    15 * (specFontSizes 70 70).length <
      searchCount (fun _ _ => (1000 : ℚ)) 1 1000000 (List.replicate 30 'a') 70 70 := by
  refine ⟨by decide, by decide⟩

/-- Claim C8 as amended: counting one width measurement per line of each
candidate that passes the line-count check, a single fit call performs
at most `(1 + 2 + 3) * 5 * F = 30 * F` measurements, where
`F = (initialFontSize - minFontSize) / fontSizeStep + 1` is the number
of font sizes tried per tier (when `initialFontSize ≥ minFontSize`);
the instrumented search is the same search. -/
theorem C8_measurement_bound (W : List Char → ℤ → ℚ) (mW mH : ℚ) (text : List Char)
    (initFs minFs : ℤ) :
    (tryLineCountsCountAux W mW mH text initFs minFs 4 1).1 =
      searchAccept W mW mH text initFs minFs ∧
    searchCount W mW mH text initFs minFs ≤ 30 * (specFontSizes initFs minFs).length ∧
    (minFs ≤ initFs →
      ((specFontSizes initFs minFs).length : ℤ) = (initFs - minFs) / 5 + 1) :=
  ⟨tryLineCountsCountAux_fst W mW mH text initFs minFs 4 1,
   searchCount_le W mW mH text initFs minFs,
   fun h => specFontSizes_length h⟩

/-- Witness for the amended C8 at the generator's concrete font sizes. -/
theorem C8_measurement_bound_witness :
    (70 : ℤ) ≤ 90 ∧
    ((specFontSizes (90 : ℤ) 70).length : ℤ) = ((90 : ℤ) - 70) / 5 + 1 :=
  ⟨by decide,
   (C8_measurement_bound (fun _ _ => (0 : ℚ)) 0 0 [] 90 70).2.2 (by decide)⟩

/-- Claim C9: empty or whitespace-only input is replaced by the fixed
non-empty placeholder before fitting, so the cleaned text handed to the
engine is never empty. -/
theorem C9_empty_input (cs : List Char) :
    (cs.all pyWs = true → cleanText cs = placeholderText) ∧
    cleanText cs ≠ [] ∧ placeholderText ≠ [] := by
  refine ⟨?_, ?_, by decide⟩
  · intro h
    have hstrip : stripWs cs = [] := by
      simp only [stripWs]
      have h1 : cs.dropWhile pyWs = [] :=
        List.dropWhile_eq_nil_iff.mpr (fun x hx => List.all_eq_true.mp h x hx)
      rw [h1]
      rfl
    have hcw : collapseWs (stripWs cs) = [] := by rw [hstrip]; rfl
    simp only [cleanText, hcw]
    rfl
  · simp only [cleanText]
    by_cases hx : (collapseWs (stripWs cs)).isEmpty
    · rw [if_pos hx]
      decide
    · rw [if_neg hx]
      simpa [List.isEmpty_iff] using hx

/-- Witness for C9 at a whitespace-only input. -/
theorem C9_empty_input_witness :
    ((' ' :: '\t' :: []).all pyWs = true) ∧
    cleanText (' ' :: '\t' :: []) = placeholderText ∧
    cleanText (' ' :: '\t' :: []) ≠ [] :=
  ⟨by decide, (C9_empty_input (' ' :: '\t' :: [])).1 (by decide),
   (C9_empty_input (' ' :: '\t' :: [])).2.1⟩

/-- Claim C10: at render time each line's centering width is produced by
the emoji-aware measurer exactly when that individual line contains an
emoji and the compositor is available — so for a mixed text, an
emoji-free line is centered with the plain-font width even though the
fit measured that same line with the emoji-aware provider. -/
theorem C10_render_width (catSo : Char → Bool) (mE mP : List Char → ℤ → ℚ)
    (text line : List Char) (fs : ℤ)
    (hline : hasEmoji catSo line = false) (htext : hasEmoji catSo text = true) :
    lineRenderWidth catSo mE mP true line fs = mP line fs ∧
    getTextWidth catSo mE mP true text line fs = mE line fs ∧
    (∀ l : List Char, hasEmoji catSo l = true →
      lineRenderWidth catSo mE mP true l fs = mE l fs) ∧
    (∀ l : List Char, lineRenderWidth catSo mE mP false l fs = mP l fs) := by
  refine ⟨?_, ?_, ?_, ?_⟩
  · rw [lineRenderWidth, if_neg (by simp [hline])]
  · rw [getTextWidth, if_pos (by simp [htext])]
  · intro l hl
    rw [lineRenderWidth, if_pos (by simp [hl])]
  · intro l
    rw [lineRenderWidth]
    simp

/-- Witness for C10: a mixed text with one emoji and an emoji-free line. -/
theorem C10_render_width_witness :
    hasEmoji (fun _ => false) ('a' :: []) = false ∧
    hasEmoji (fun _ => false) ('a' :: Char.ofNat 0x1F600 :: []) = true ∧
    lineRenderWidth (fun _ => false) (fun _ _ => (7 : ℚ)) (fun _ _ => (3 : ℚ))
      true ('a' :: []) 90 = 3 ∧
    getTextWidth (fun _ => false) (fun _ _ => (7 : ℚ)) (fun _ _ => (3 : ℚ))
      true ('a' :: Char.ofNat 0x1F600 :: []) ('a' :: []) 90 = 7 :=
  ⟨by decide, by decide,
   (C10_render_width (fun _ => false) (fun _ _ => (7 : ℚ)) (fun _ _ => (3 : ℚ))
     ('a' :: Char.ofNat 0x1F600 :: []) ('a' :: []) 90 (by decide) (by decide)).1,
   (C10_render_width (fun _ => false) (fun _ _ => (7 : ℚ)) (fun _ _ => (3 : ℚ))
     ('a' :: Char.ofNat 0x1F600 :: []) ('a' :: []) 90 (by decide) (by decide)).2.1⟩

end GoodNews
